import Mathlib

/-!
Verification of the move-selection engine of `rusty-lichess-bot`
(`src/engine/main_engine.rs` together with `src/util.rs`).

Shallow embedding conventions:
* The shakmaty rules engine is an external collaborator (spec §1, §6); it is
  modelled by the `ChessApi` structure of query functions, so theorems are
  stated for every instantiation of that interface.  Facts that the real rules
  engine guarantees (e.g. "a position with no legal move is game over") appear
  as explicit hypotheses where a claim needs them.
* `i32` values are modelled as unbounded `Int`.  Every arithmetic value the
  engine manipulates is an evaluation score: material sums (|v| ≤ 103 on a
  legal board), the mate scores `±(1_000_000 ∓ fullmoves)` and the root
  sentinel `-1_001_000`, all far below `2^31`, so 32-bit overflow cannot occur
  on values produced from real positions.
* `u8`/`u32`/`NonZeroU32` counters (`fullmoves`, piece counts, cutoff
  counters) are modelled as `Nat`.
* The root move table is a Rust `HashMap`; its iteration order is arbitrary
  but is the same for the evaluation pass (`iter_mut`) and the collection pass
  (`into_iter`) because the map is not restructured in between.  That order is
  modelled as an explicit `order : List Mv` parameter of `search`.
-/

/-- `shakmaty::Color`. -/
inductive Color where
  | White : Color
  | Black : Color
deriving DecidableEq, Repr

/-- `const MAX_EVAL: i32 = 1_000_000;` from `main_engine.rs`. -/
def MAX_EVAL : Int := 1000000

/-- `const MIN_EVAL: i32 = -1_000_000;` from `main_engine.rs`. -/
def MIN_EVAL : Int := -1000000

/-- `pub enum Evaluation` from `main_engine.rs`. -/
inductive Evaluation where
  | Additive : Int → Evaluation
  | Absolute : Int → Evaluation
deriving DecidableEq, Repr

/-- Rust `std::cmp::min_by_key(i, j, |num| num.abs())` on `i32`: returns the
first argument when the keys are equal. -/
def min_by_key_abs (i j : Int) : Int :=
  if i.natAbs ≤ j.natAbs then i else j

/-- `impl Add for Evaluation` from `main_engine.rs`. -/
def Evaluation.add (lhs rhs : Evaluation) : Evaluation :=
  match lhs with
  | Evaluation.Additive i =>
    match rhs with
    | Evaluation.Additive j => Evaluation.Additive (i + j)
    | Evaluation.Absolute j => Evaluation.Absolute j
  | Evaluation.Absolute i =>
    match rhs with
    | Evaluation.Additive _ => lhs
    | Evaluation.Absolute j => Evaluation.Absolute (min_by_key_abs i j)

instance : Add Evaluation := ⟨Evaluation.add⟩

/-- `Evaluation::to_i32` from `main_engine.rs`. -/
def Evaluation.to_i32 : Evaluation → Int
  | Evaluation.Additive v => v
  | Evaluation.Absolute v => v

/-- `shakmaty::ByRole<u8>` restricted to the fields `util.rs` reads. -/
structure ByRoleCounts where
  pawn : Nat
  knight : Nat
  bishop : Nat
  rook : Nat
  queen : Nat
deriving DecidableEq, Repr

/-- Piece-value constants from `util.rs`. -/
def QUEEN_VALUE : Int := 9

def ROOK_VALUE : Int := 5

def BISHOP_VALUE : Int := 3

def KNIGHT_VALUE : Int := 3

def PAWN_VALUE : Int := 1

/-- `util::material_for_side`. -/
def material_for_side (w : ByRoleCounts) : Int :=
  (w.pawn : Int) * PAWN_VALUE + (w.knight : Int) * KNIGHT_VALUE
    + (w.bishop : Int) * BISHOP_VALUE + (w.rook : Int) * ROOK_VALUE
    + (w.queen : Int) * QUEEN_VALUE

/-- The narrow interface the engine consumes from the shakmaty rules engine
(spec §6).  `Pos` is an opaque position, `Mv` an opaque move and `Uci` an
externally-encoded move. -/
structure ChessApi (Pos Mv Uci : Type) where
  legal_moves : Pos → List Mv
  play_unchecked : Pos → Mv → Pos
  is_game_over : Pos → Bool
  turn : Pos → Color
  is_checkmate : Pos → Bool
  is_stalemate : Pos → Bool
  is_insufficient_material : Pos → Bool
  fullmoves : Pos → Nat
  material_side : Pos → Color → ByRoleCounts
  to_move : Pos → Uci → Option Mv

variable {Pos Mv Uci : Type}

/-- `util::material_difference` (the board is reached through the position). -/
def util_material_difference (api : ChessApi Pos Mv Uci) (position : Pos) : Int :=
  material_for_side (api.material_side position Color.White)
    - material_for_side (api.material_side position Color.Black)

/-- Strategy `material_difference` from `main_engine.rs`. -/
def material_difference (api : ChessApi Pos Mv Uci) (game : Pos) (bot_color : Color) :
    Evaluation :=
  let side : Int := if bot_color = Color.White then 1 else -1
  Evaluation.Additive (util_material_difference api game * side)

/-- Strategy `evaluate_draw` from `main_engine.rs`. -/
def evaluate_draw (api : ChessApi Pos Mv Uci) (game : Pos) (_bot_color : Color) :
    Evaluation :=
  match api.is_stalemate game || api.is_insufficient_material game with
  | true => Evaluation.Absolute 0
  | false => Evaluation.Additive 0

/-- Strategy `evaluate_checkmate` from `main_engine.rs`. -/
def evaluate_checkmate (api : ChessApi Pos Mv Uci) (game : Pos) (bot_color : Color) :
    Evaluation :=
  match api.is_checkmate game with
  | true =>
    Evaluation.Absolute
      (if api.turn game ≠ bot_color then MAX_EVAL - (api.fullmoves game : Int)
       else MIN_EVAL + (api.fullmoves game : Int))
  | false => Evaluation.Additive 0

/-- `MainEngine::evaluate_position`: fold of the fixed strategy list
`[material_difference, evaluate_checkmate, evaluate_draw]` starting from
`Additive(0)`, collapsed with `to_i32`. -/
def evaluate_position (api : ChessApi Pos Mv Uci) (color : Color) (game_state : Pos) :
    Int :=
  (((Evaluation.Additive 0).add (material_difference api game_state color)).add
        ((evaluate_checkmate api game_state color)) |>.add
      (evaluate_draw api game_state color)).to_i32

/-- `struct StatsSubsystem` from `main_engine.rs`. -/
structure StatsSubsystem where
  current_target_eval : Int
  pruning_cutoffs : List Nat
deriving DecidableEq, Repr

/-- `StatsSubsystem::new`. -/
def StatsSubsystem.new : StatsSubsystem :=
  { current_target_eval := 0, pruning_cutoffs := [] }

/-- `StatsSubsystem::reset_move_metrics`. -/
def StatsSubsystem.reset_move_metrics (stats : StatsSubsystem) (search_depth : Nat) :
    StatsSubsystem :=
  { stats with pruning_cutoffs := List.replicate search_depth 0 }

/-- `struct MainEngine` (the `game`/`color`/`stats` state). -/
structure MainEngine (Pos : Type) where
  game : Pos
  color : Color
  stats : StatsSubsystem

/-- Error raised when `UciMove::to_move` cannot resolve the supplied move
against the current position (spec §7 `InvalidMove`). -/
inductive MoveError where
  | invalidMove : MoveError
deriving DecidableEq, Repr

/-- `MainEngine::update_board`: resolve the UCI move against the current
position; on failure the `?` operator returns the error before the state is
touched, on success `play_unchecked` advances the internal position. -/
def update_board (api : ChessApi Pos Mv Uci) (self : MainEngine Pos)
    (move_played : Uci) : MainEngine Pos × Except MoveError Unit :=
  match api.to_move self.game move_played with
  | none => (self, Except.error MoveError.invalidMove)
  | some valid_move =>
    ({ self with game := api.play_unchecked self.game valid_move }, Except.ok ())

/-! ## The search core: `MainEngine::deep_move_evaluation` -/

/-- The maximizing branch of the move loop of `deep_move_evaluation`
(`is_bots_turn` case): fold the children through `f` (the recursive call one
ply deeper), keep the running maximum in `deeper_eval`, raise `alpha`, and
break out of the loop as soon as a child evaluation exceeds `beta`.
`beta` is never modified in this branch. -/
def abMaxLoop (f : Mv → Int → Int → Int) (beta : Int) :
    List Mv → Int → Int → Int
  | [], deeper_eval, _ => deeper_eval
  | m :: rest, deeper_eval, alpha =>
    let eval := f m alpha beta
    let deeper_eval2 := max deeper_eval eval
    let alpha2 := max alpha eval
    if beta < eval then deeper_eval2 else abMaxLoop f beta rest deeper_eval2 alpha2

/-- The minimizing branch of the move loop of `deep_move_evaluation`
(opponent's turn): running minimum, lower `beta`, break as soon as a child
evaluation drops below `alpha`.  `alpha` is never modified in this branch. -/
def abMinLoop (f : Mv → Int → Int → Int) (alpha : Int) :
    List Mv → Int → Int → Int
  | [], deeper_eval, _ => deeper_eval
  | m :: rest, deeper_eval, beta =>
    let eval := f m alpha beta
    let deeper_eval2 := min deeper_eval eval
    let beta2 := min beta eval
    if eval < alpha then deeper_eval2 else abMinLoop f alpha rest deeper_eval2 beta2

/-- `MainEngine::deep_move_evaluation` with the `StatsSubsystem` bookkeeping
erased (the counters do not feed back into any value; `dmeS` below carries
them and `dmeS_fst` relates the two).  The move is played on a clone of the
position, then either the position is evaluated (at depth 0 or a terminal
position) or the legal moves of the resulting position are explored one ply
shallower with the alpha-beta window. -/
def deep_move_evaluation (api : ChessApi Pos Mv Uci) (color : Color) :
    Nat → Pos → Mv → Int → Int → Int
  | 0, game_state, legal_move, _, _ =>
    evaluate_position api color (api.play_unchecked game_state legal_move)
  | d + 1, game_state, legal_move, alpha, beta =>
    let g2 := api.play_unchecked game_state legal_move
    if api.is_game_over g2 then evaluate_position api color g2
    else if api.turn g2 = color then
      abMaxLoop (fun m a b => deep_move_evaluation api color d g2 m a b) beta
        (api.legal_moves g2) MIN_EVAL alpha
    else
      abMinLoop (fun m a b => deep_move_evaluation api color d g2 m a b) alpha
        (api.legal_moves g2) MAX_EVAL beta

/-- `pruning_cutoffs[idx] += 1` on the stats vector. -/
def bumpCutoff (stats : StatsSubsystem) (idx : Nat) : StatsSubsystem :=
  { stats with
    pruning_cutoffs :=
      stats.pruning_cutoffs.set idx (stats.pruning_cutoffs.getD idx 0 + 1) }

/-- Maximizing move loop with the stats state threaded through; on a cutoff
the counter at `depth - 1` (here `idx`) is incremented before breaking. -/
def abMaxLoopS (f : StatsSubsystem → Mv → Int → Int → Int × StatsSubsystem)
    (idx : Nat) (beta : Int) :
    StatsSubsystem → List Mv → Int → Int → Int × StatsSubsystem
  | stats, [], deeper_eval, _ => (deeper_eval, stats)
  | stats, m :: rest, deeper_eval, alpha =>
    let r := f stats m alpha beta
    let deeper_eval2 := max deeper_eval r.1
    let alpha2 := max alpha r.1
    if beta < r.1 then (deeper_eval2, bumpCutoff r.2 idx)
    else abMaxLoopS f idx beta r.2 rest deeper_eval2 alpha2

/-- Minimizing move loop with the stats state threaded through. -/
def abMinLoopS (f : StatsSubsystem → Mv → Int → Int → Int × StatsSubsystem)
    (idx : Nat) (alpha : Int) :
    StatsSubsystem → List Mv → Int → Int → Int × StatsSubsystem
  | stats, [], deeper_eval, _ => (deeper_eval, stats)
  | stats, m :: rest, deeper_eval, beta =>
    let r := f stats m alpha beta
    let deeper_eval2 := min deeper_eval r.1
    let beta2 := min beta r.1
    if r.1 < alpha then (deeper_eval2, bumpCutoff r.2 idx)
    else abMinLoopS f idx alpha r.2 rest deeper_eval2 beta2

/-- `MainEngine::deep_move_evaluation` with the `&mut self.stats` effect made
explicit: the cutoff counter at index `depth - 1` is incremented whenever a
branch is pruned. -/
def dmeS (api : ChessApi Pos Mv Uci) (color : Color) :
    Nat → StatsSubsystem → Pos → Mv → Int → Int → Int × StatsSubsystem
  | 0, stats, game_state, legal_move, _, _ =>
    (evaluate_position api color (api.play_unchecked game_state legal_move), stats)
  | d + 1, stats, game_state, legal_move, alpha, beta =>
    let g2 := api.play_unchecked game_state legal_move
    if api.is_game_over g2 then (evaluate_position api color g2, stats)
    else if api.turn g2 = color then
      abMaxLoopS (fun s m a b => dmeS api color d s g2 m a b) d beta
        stats (api.legal_moves g2) MIN_EVAL alpha
    else
      abMinLoopS (fun s m a b => dmeS api color d s g2 m a b) d alpha
        stats (api.legal_moves g2) MAX_EVAL beta

/-- Modelled from the spec ("an unpruned full minimax traversal of the same
game tree to the same depth", §8): the same recursion as
`deep_move_evaluation` with the alpha-beta window and the cutoffs removed.
This is the reference side of the refinement claim C1. -/
def minimax (api : ChessApi Pos Mv Uci) (color : Color) : Nat → Pos → Mv → Int
  | 0, game_state, legal_move =>
    evaluate_position api color (api.play_unchecked game_state legal_move)
  | d + 1, game_state, legal_move =>
    let g2 := api.play_unchecked game_state legal_move
    if api.is_game_over g2 then evaluate_position api color g2
    else if api.turn g2 = color then
      (api.legal_moves g2).foldl (fun v m => max v (minimax api color d g2 m)) MIN_EVAL
    else
      (api.legal_moves g2).foldl (fun v m => min v (minimax api color d g2 m)) MAX_EVAL

/-! ## The root of `MainEngine::search` -/

/-- The root sentinel `MIN_EVAL - 1000` ("make sure it's still smaller than
checkmate"). -/
def ROOT_ALPHA : Int := MIN_EVAL - 1000

/-- The root evaluation pass of `search` (`legal_moves.iter_mut().for_each`):
every move of `order` (the hash-map iteration order of the root move table) is
scored by `deep_move_evaluation` at `search_depth - 1` with window
`(alpha, MAX_EVAL)`, and `alpha` is raised to the running maximum of the root
scores before the next root move is scored. -/
def rootEvals (api : ChessApi Pos Mv Uci) (color : Color) (d : Nat) (g : Pos) :
    Int → List Mv → List (Mv × Int)
  | _, [] => []
  | alpha, legal_move :: rest =>
    let eval := deep_move_evaluation api color d g legal_move alpha MAX_EVAL
    (legal_move, eval) :: rootEvals api color d g (max alpha eval) rest

/-- The root evaluation pass with the stats state threaded through. -/
def rootEvalsS (api : ChessApi Pos Mv Uci) (color : Color) (d : Nat) (g : Pos) :
    StatsSubsystem → Int → List Mv → List (Mv × Int) × StatsSubsystem
  | stats, _, [] => ([], stats)
  | stats, alpha, legal_move :: rest =>
    let r := dmeS api color d stats g legal_move alpha MAX_EVAL
    let rec2 := rootEvalsS api color d g r.2 (max alpha r.1) rest
    ((legal_move, r.1) :: rec2.1, rec2.2)

/-- `evaluated_moves.sort_by_key(|(_, eval)| *eval)` (a stable ascending
sort), then `reverse()`, then `first()`: the chosen `(move, eval)` pair. -/
def chooseBest (l : List (Mv × Int)) : Option (Mv × Int) :=
  ((l.mergeSort (fun x y => decide (x.2 ≤ y.2))).reverse).head?

/-- `MainEngine::search`.  `order` is the iteration order of the root
`HashMap` holding the legal moves (arbitrary, but shared by the evaluation
pass and the collection pass); the legal-move set itself is
`api.legal_moves self.game`, of which `order` is a permutation. -/
def MainEngine.search (api : ChessApi Pos Mv Uci) (self : MainEngine Pos)
    (order : List Mv) : Option Mv × MainEngine Pos :=
  if order.isEmpty || api.is_game_over self.game then (none, self)
  else
    let search_depth : Nat := 4
    let stats1 := self.stats.reset_move_metrics search_depth
    let r := rootEvalsS api self.color (search_depth - 1) self.game stats1
      ROOT_ALPHA order
    match chooseBest r.1 with
    | none => (none, { self with stats := r.2 })
    | some (chosen_move, best_eval) =>
      (some chosen_move,
        { self with stats := { r.2 with current_target_eval := best_eval } })

/-- The root scores of the unpruned reference search: every root move paired
with its full `minimax` value. -/
def rootEvalsU (api : ChessApi Pos Mv Uci) (color : Color) (d : Nat) (g : Pos)
    (ms : List Mv) : List (Mv × Int) :=
  ms.map (fun m => (m, minimax api color d g m))

/-- Modelled from the spec (§8, alpha-beta result equivalence): the same
root pipeline as `MainEngine.search` with every root move scored by the
unpruned `minimax` instead of the pruning search.  Reference side of C1. -/
def search_unpruned (api : ChessApi Pos Mv Uci) (self : MainEngine Pos)
    (order : List Mv) : Option Mv × MainEngine Pos :=
  if order.isEmpty || api.is_game_over self.game then (none, self)
  else
    let search_depth : Nat := 4
    let stats1 := self.stats.reset_move_metrics search_depth
    let evaluated := rootEvalsU api self.color (search_depth - 1) self.game order
    match chooseBest evaluated with
    | none => (none, { self with stats := stats1 })
    | some (chosen_move, best_eval) =>
      (some chosen_move,
        { self with stats := { stats1 with current_target_eval := best_eval } })

/-- The assertion discipline of `deep_move_evaluation`: the claim of
`assert!(!legal_moves.is_empty())` holds at this call and at every recursive
call below it (a superset of the calls actually reached once pruning breaks
the loop early). -/
def assert_ok (api : ChessApi Pos Mv Uci) : Nat → Pos → Mv → Prop
  | 0, _, _ => True
  | d + 1, game_state, legal_move =>
    let g2 := api.play_unchecked game_state legal_move
    api.is_game_over g2 = true ∨
      (api.legal_moves g2 ≠ [] ∧ ∀ m ∈ api.legal_moves g2, assert_ok api d g2 m)

/-! ## Concrete instantiations used by witnesses and counterexamples -/

/-- A two-move toy game: position `false` has legal moves `[0, 1]`, both of
which lead to the terminal position `true`.  All evaluation queries are
neutral, so the two root moves tie at score 0. -/
def demoApi : ChessApi Bool Nat Nat where
  legal_moves := fun p => if p then [] else [0, 1]
  play_unchecked := fun _ _ => true
  is_game_over := fun p => p
  turn := fun p => if p then Color.Black else Color.White
  is_checkmate := fun _ => false
  is_stalemate := fun _ => false
  is_insufficient_material := fun _ => false
  fullmoves := fun _ => 1
  material_side := fun _ _ => ⟨0, 0, 0, 0, 0⟩
  to_move := fun _ u => if u < 2 then some u else none

/-- A single checkmated position with White to move at fullmove 3. -/
def mateApi : ChessApi Unit Unit Unit where
  legal_moves := fun _ => []
  play_unchecked := fun _ _ => ()
  is_game_over := fun _ => true
  turn := fun _ => Color.White
  is_checkmate := fun _ => true
  is_stalemate := fun _ => false
  is_insufficient_material := fun _ => false
  fullmoves := fun _ => 3
  material_side := fun _ _ => ⟨0, 0, 0, 0, 0⟩
  to_move := fun _ _ => none

/-- A stalemate position with a large material imbalance (two white queens
against a bare king). -/
def drawApi : ChessApi Unit Unit Unit where
  legal_moves := fun _ => []
  play_unchecked := fun _ _ => ()
  is_game_over := fun _ => true
  turn := fun _ => Color.Black
  is_checkmate := fun _ => false
  is_stalemate := fun _ => true
  is_insufficient_material := fun _ => false
  fullmoves := fun _ => 10
  material_side := fun _ c => if c = Color.White then ⟨0, 0, 0, 0, 2⟩ else ⟨0, 0, 0, 0, 0⟩
  to_move := fun _ _ => none

/-! ## C3 and C10: the evaluation algebra -/

/-- C3: the combination operator satisfies `Additive i + Additive j =
Additive (i+j)`, `Additive i + Absolute j = Absolute j`, `Absolute i +
Additive j = Absolute i`, and `Absolute i + Absolute j = Absolute r` for a
value `r` taken among `i, j` whose absolute value is the smaller of the two
absolute values. -/
theorem evaluation_add_rules (i j : Int) :
    (Evaluation.Additive i).add (Evaluation.Additive j) = Evaluation.Additive (i + j) ∧
    (Evaluation.Additive i).add (Evaluation.Absolute j) = Evaluation.Absolute j ∧
    (Evaluation.Absolute i).add (Evaluation.Additive j) = Evaluation.Absolute i ∧
    ∃ r : Int, (Evaluation.Absolute i).add (Evaluation.Absolute j) = Evaluation.Absolute r ∧
      (r = i ∨ r = j) ∧ r.natAbs = min i.natAbs j.natAbs := by
  refine ⟨rfl, rfl, rfl, min_by_key_abs i j, rfl, ?_, ?_⟩
  · unfold min_by_key_abs
    split
    · exact Or.inl rfl
    · exact Or.inr rfl
  · unfold min_by_key_abs
    split <;> omega

/-- C10: on a magnitude tie `Absolute i + Absolute j` keeps the left operand
(`min_by_key` returns its first argument when the keys compare equal), so the
operator is not commutative on `Absolute` values of equal magnitude and
opposite sign, witnessed at `i = 5, j = -5`. -/
theorem evaluation_absolute_tie_left (i j : Int) (h : i.natAbs = j.natAbs) :
    (Evaluation.Absolute i).add (Evaluation.Absolute j) = Evaluation.Absolute i ∧
    (Evaluation.Absolute (5 : Int)).add (Evaluation.Absolute (-5)) = Evaluation.Absolute 5 ∧
    (Evaluation.Absolute (-5 : Int)).add (Evaluation.Absolute 5) = Evaluation.Absolute (-5) ∧
    (Evaluation.Absolute (5 : Int)).add (Evaluation.Absolute (-5)) ≠
      (Evaluation.Absolute (-5 : Int)).add (Evaluation.Absolute 5) := by
  refine ⟨?_, by decide, by decide, by decide⟩
  show Evaluation.Absolute (min_by_key_abs i j) = Evaluation.Absolute i
  unfold min_by_key_abs
  rw [if_pos (le_of_eq h)]

theorem evaluation_absolute_tie_left_witness :
    (5 : Int).natAbs = (-5 : Int).natAbs ∧
    (Evaluation.Absolute (5 : Int)).add (Evaluation.Absolute (-5)) = Evaluation.Absolute 5 :=
  ⟨by decide, (evaluation_absolute_tie_left 5 (-5) (by decide)).1⟩

/-! ## C5: the checkmate strategy -/

/-- C5: `evaluate_checkmate` returns `Absolute(1000000 - fullmoves)` on a
checkmate with the opponent of the bot to move, `Absolute(-1000000 +
fullmoves)` on a checkmate with the bot to move, and `Additive 0` otherwise. -/
theorem evaluate_checkmate_cases (api : ChessApi Pos Mv Uci) (g : Pos) (c : Color) :
    (api.is_checkmate g = true → api.turn g ≠ c →
      evaluate_checkmate api g c = Evaluation.Absolute (1000000 - (api.fullmoves g : Int))) ∧
    (api.is_checkmate g = true → api.turn g = c →
      evaluate_checkmate api g c = Evaluation.Absolute (-1000000 + (api.fullmoves g : Int))) ∧
    (api.is_checkmate g = false → evaluate_checkmate api g c = Evaluation.Additive 0) := by
  unfold evaluate_checkmate MAX_EVAL MIN_EVAL
  refine ⟨fun hm ht => ?_, fun hm ht => ?_, fun hm => ?_⟩
  · rw [hm]
    simp [ht]
  · rw [hm]
    simp [ht]
  · rw [hm]

theorem evaluate_checkmate_cases_witness :
    evaluate_checkmate mateApi () Color.Black = Evaluation.Absolute 999997 ∧
    evaluate_checkmate mateApi () Color.White = Evaluation.Absolute (-999997) ∧
    evaluate_checkmate demoApi false Color.White = Evaluation.Additive 0 := by
  refine ⟨?_, ?_, ?_⟩
  · have h := (evaluate_checkmate_cases mateApi () Color.Black).1 (by decide) (by decide)
    rw [h]
    decide
  · have h := (evaluate_checkmate_cases mateApi () Color.White).2.1 (by decide) (by decide)
    rw [h]
    decide
  · exact (evaluate_checkmate_cases demoApi false Color.White).2.2 (by decide)

/-! ## C6: the draw strategy and the draw override -/

/-- Adding `Absolute 0` as the last strategy output collapses the whole
evaluation to `0`, whatever came before. -/
theorem add_absolute_zero_to_i32 (e : Evaluation) :
    (e.add (Evaluation.Absolute 0)).to_i32 = 0 := by
  cases e with
  | Additive i => rfl
  | Absolute i =>
    show (min_by_key_abs i 0) = 0
    unfold min_by_key_abs
    split <;> omega

/-- C6: on a stalemate or insufficient-material position `evaluate_draw`
returns `Absolute 0` and the full `evaluate_position` fold collapses to
exactly `0` regardless of the material on the board; on every other position
`evaluate_draw` is the no-op `Additive 0`. -/
theorem evaluate_draw_override (api : ChessApi Pos Mv Uci) (g : Pos) (c : Color) :
    ((api.is_stalemate g = true ∨ api.is_insufficient_material g = true) →
      evaluate_draw api g c = Evaluation.Absolute 0 ∧ evaluate_position api c g = 0) ∧
    (api.is_stalemate g = false → api.is_insufficient_material g = false →
      evaluate_draw api g c = Evaluation.Additive 0) := by
  constructor
  · intro h
    have hdraw : evaluate_draw api g c = Evaluation.Absolute 0 := by
      unfold evaluate_draw
      rcases h with h | h <;> rw [h] <;> simp
    refine ⟨hdraw, ?_⟩
    unfold evaluate_position
    rw [hdraw]
    exact add_absolute_zero_to_i32 _
  · intro h1 h2
    unfold evaluate_draw
    rw [h1, h2]
    rfl

theorem evaluate_draw_override_witness :
    drawApi.is_stalemate () = true ∧
    util_material_difference drawApi () = 18 ∧
    evaluate_draw drawApi () Color.White = Evaluation.Absolute 0 ∧
    evaluate_position drawApi Color.White () = 0 ∧
    evaluate_draw demoApi false Color.White = Evaluation.Additive 0 := by
  have h := (evaluate_draw_override drawApi () Color.White).1 (Or.inl (by decide))
  exact ⟨by decide, by decide, h.1, h.2,
    (evaluate_draw_override demoApi false Color.White).2 (by decide) (by decide)⟩

/-! ## C7: `update_board` -/

/-- C7: when the supplied move cannot be resolved against the current
position, `update_board` fails with `InvalidMove` and the engine state is
returned unchanged; when it resolves, the internal position is advanced by
exactly that move and the call succeeds. -/
theorem update_board_cases (api : ChessApi Pos Mv Uci) (self : MainEngine Pos)
    (m : Uci) :
    (api.to_move self.game m = none →
      update_board api self m = (self, Except.error MoveError.invalidMove)) ∧
    (∀ vm, api.to_move self.game m = some vm →
      update_board api self m =
        ({ self with game := api.play_unchecked self.game vm }, Except.ok ())) := by
  constructor
  · intro h
    unfold update_board
    rw [h]
  · intro vm h
    unfold update_board
    rw [h]

theorem update_board_cases_witness :
    update_board demoApi ⟨false, Color.White, StatsSubsystem.new⟩ 5 =
      (⟨false, Color.White, StatsSubsystem.new⟩, Except.error MoveError.invalidMove) ∧
    update_board demoApi ⟨false, Color.White, StatsSubsystem.new⟩ 0 =
      (⟨true, Color.White, StatsSubsystem.new⟩, Except.ok ()) := by
  constructor
  · exact (update_board_cases demoApi ⟨false, Color.White, StatsSubsystem.new⟩ 5).1 rfl
  · exact (update_board_cases demoApi ⟨false, Color.White, StatsSubsystem.new⟩ 0).2 0 rfl

/-! ## C8: the non-empty-moves assertion -/

/-- C8: under the rules-engine guarantee that a position with no legal move
is game over (shakmaty: `is_game_over` holds exactly when `outcome()` is
`Some`, and an empty legal-move set means checkmate or stalemate), the
assertion `assert!(!legal_moves.is_empty())` in `deep_move_evaluation` holds
on every call with `depth > 0` whose played-through position is not game
over, and recursively on every call below it. -/
theorem dme_assert_never_fails (api : ChessApi Pos Mv Uci)
    (hrules : ∀ p, api.legal_moves p = [] → api.is_game_over p = true) :
    ∀ (d : Nat) (g : Pos) (m : Mv),
      (d ≠ 0 → api.is_game_over (api.play_unchecked g m) = false →
        api.legal_moves (api.play_unchecked g m) ≠ []) ∧
      assert_ok api d g m := by
  intro d
  induction d with
  | zero =>
    intro g m
    exact ⟨fun h => absurd rfl h, trivial⟩
  | succ n ih =>
    intro g m
    constructor
    · intro _ hngo hempty
      rw [hrules _ hempty] at hngo
      cases hngo
    · show api.is_game_over (api.play_unchecked g m) = true ∨ _
      by_cases hgo : api.is_game_over (api.play_unchecked g m) = true
      · exact Or.inl hgo
      · refine Or.inr ⟨?_, fun m2 _ => (ih _ m2).2⟩
        intro hempty
        exact hgo (hrules _ hempty)

theorem dme_assert_never_fails_witness :
    assert_ok demoApi 2 false 0 ∧
    (demoApi.is_game_over (demoApi.play_unchecked false 0) = false →
      demoApi.legal_moves (demoApi.play_unchecked false 0) ≠ []) := by
  have h := dme_assert_never_fails demoApi (by decide) 2 false 0
  exact ⟨h.2, h.1 (by decide)⟩

/-! ## C9: the stats subsystem never influences the result -/

/-- The stats-threaded maximizing loop computes the same value as the pure
one, provided the child function does. -/
theorem abMaxLoopS_fst (fS : StatsSubsystem → Mv → Int → Int → Int × StatsSubsystem)
    (f : Mv → Int → Int → Int) (idx : Nat) (beta : Int)
    (hf : ∀ s m a b, (fS s m a b).1 = f m a b) :
    ∀ (ms : List Mv) (s : StatsSubsystem) (v a : Int),
      (abMaxLoopS fS idx beta s ms v a).1 = abMaxLoop f beta ms v a := by
  intro ms
  induction ms with
  | nil => intro s v a; rfl
  | cons m rest ih =>
    intro s v a
    show (if beta < (fS s m a beta).1 then _ else abMaxLoopS fS idx beta _ rest _ _).1 =
      (if beta < f m a beta then _ else abMaxLoop f beta rest _ _)
    rw [hf]
    split
    · rfl
    · rw [ih]

/-- The stats-threaded minimizing loop computes the same value as the pure
one. -/
theorem abMinLoopS_fst (fS : StatsSubsystem → Mv → Int → Int → Int × StatsSubsystem)
    (f : Mv → Int → Int → Int) (idx : Nat) (alpha : Int)
    (hf : ∀ s m a b, (fS s m a b).1 = f m a b) :
    ∀ (ms : List Mv) (s : StatsSubsystem) (v b : Int),
      (abMinLoopS fS idx alpha s ms v b).1 = abMinLoop f alpha ms v b := by
  intro ms
  induction ms with
  | nil => intro s v b; rfl
  | cons m rest ih =>
    intro s v b
    show (if (fS s m alpha b).1 < alpha then _ else abMinLoopS fS idx alpha _ rest _ _).1 =
      (if f m alpha b < alpha then _ else abMinLoop f alpha rest _ _)
    rw [hf]
    split
    · rfl
    · rw [ih]

/-- The value computed by `deep_move_evaluation` does not depend on the stats
state threaded through it. -/
theorem dmeS_fst (api : ChessApi Pos Mv Uci) (color : Color) :
    ∀ (d : Nat) (s : StatsSubsystem) (g : Pos) (m : Mv) (alpha beta : Int),
      (dmeS api color d s g m alpha beta).1 =
        deep_move_evaluation api color d g m alpha beta := by
  intro d
  induction d with
  | zero => intro s g m alpha beta; rfl
  | succ n ih =>
    intro s g m alpha beta
    show (if api.is_game_over (api.play_unchecked g m) then _
      else if api.turn (api.play_unchecked g m) = color then
        abMaxLoopS _ n _ s _ MIN_EVAL alpha else abMinLoopS _ n _ s _ MAX_EVAL beta).1 =
      (if api.is_game_over (api.play_unchecked g m) then _
      else if api.turn (api.play_unchecked g m) = color then
        abMaxLoop _ _ _ MIN_EVAL alpha else abMinLoop _ _ _ MAX_EVAL beta)
    split
    · rfl
    · split
      · exact abMaxLoopS_fst _ _ n _ (fun s2 m2 a b => ih s2 _ m2 a b) _ s MIN_EVAL alpha
      · exact abMinLoopS_fst _ _ n _ (fun s2 m2 a b => ih s2 _ m2 a b) _ s MAX_EVAL beta

/-- The root evaluation list does not depend on the stats state. -/
theorem rootEvalsS_fst (api : ChessApi Pos Mv Uci) (color : Color) (d : Nat) (g : Pos) :
    ∀ (ms : List Mv) (s : StatsSubsystem) (alpha : Int),
      (rootEvalsS api color d g s alpha ms).1 = rootEvals api color d g alpha ms := by
  intro ms
  induction ms with
  | nil => intro s alpha; rfl
  | cons m rest ih =>
    intro s alpha
    show ((m, (dmeS api color d s g m alpha MAX_EVAL).1) ::
        (rootEvalsS api color d g _ (max alpha (dmeS api color d s g m alpha MAX_EVAL).1) rest).1,
        _).1 = _
    rw [dmeS_fst, ih]
    rfl

/-- C9: two runs of `search` from states that differ only in the stats field
return the same move, and the per-move evaluation values of the root pass are
identical; the diagnostics are purely observational. -/
theorem search_ignores_stats (api : ChessApi Pos Mv Uci) (g : Pos) (c : Color)
    (s1 s2 : StatsSubsystem) (order : List Mv) :
    (MainEngine.search api ⟨g, c, s1⟩ order).1 = (MainEngine.search api ⟨g, c, s2⟩ order).1 ∧
    (rootEvalsS api c 3 g (s1.reset_move_metrics 4) ROOT_ALPHA order).1 =
      (rootEvalsS api c 3 g (s2.reset_move_metrics 4) ROOT_ALPHA order).1 := by
  constructor
  · unfold MainEngine.search
    split
    · rfl
    · simp only [rootEvalsS_fst]
      rcases chooseBest (rootEvals api c (4 - 1) g ROOT_ALPHA order) with _ | ⟨m, b⟩ <;> rfl
  · rw [rootEvalsS_fst, rootEvalsS_fst]

/-! ## C1: alpha-beta computes minimax — the fail-soft accuracy relation

The cutoffs in `deep_move_evaluation` are strict (`eval > beta`,
`eval < alpha`), so the search is fail-soft and exact on the closed window:
below `alpha` the returned value is an upper bound on the true minimax value,
above `beta` a lower bound, and inside `[alpha, beta]` it is exact. -/

/-- Fail-soft accuracy of a search value `v` against the true value `M` for
the window `(alpha, beta)`. -/
def ELH (alpha beta v M : Int) : Prop :=
  (alpha ≤ v → v ≤ beta → v = M) ∧ (v < alpha → M ≤ v) ∧ (beta < v → v ≤ M)

/-- The seed of a `max`-fold is a lower bound of its result. -/
theorem foldl_max_init_le (mmc : Mv → Int) :
    ∀ (ms : List Mv) (x : Int), x ≤ ms.foldl (fun v m => max v (mmc m)) x := by
  intro ms
  induction ms with
  | nil => intro x; exact le_refl x
  | cons m rest ih =>
    intro x
    exact le_trans (le_max_left x (mmc m)) (ih (max x (mmc m)))

/-- The seed of a `min`-fold is an upper bound of its result. -/
theorem foldl_min_le_init (mmc : Mv → Int) :
    ∀ (ms : List Mv) (x : Int), ms.foldl (fun v m => min v (mmc m)) x ≤ x := by
  intro ms
  induction ms with
  | nil => intro x; exact le_refl x
  | cons m rest ih =>
    intro x
    exact le_trans (ih (min x (mmc m))) (min_le_left x (mmc m))

/-- Loop invariant of the maximizing branch: if every child value is
fail-soft accurate for its own window `(a, beta)` with the running `a`, the
loop value is fail-soft accurate for the node window `(alpha, beta)` against
the plain `max`-fold of the true child values. -/
theorem abMaxLoop_ELH (f : Mv → Int → Int → Int) (mmc : Mv → Int) (alpha beta : Int)
    (hab : alpha ≤ beta)
    (hf : ∀ m a, alpha ≤ a → a ≤ beta → ELH a beta (f m a beta) (mmc m)) :
    ∀ (ms : List Mv) (v M a : Int),
      alpha ≤ a → a ≤ beta → a ≤ max alpha v →
      M ≤ v → (alpha ≤ v → v ≤ M) → v ≤ max alpha M →
      ELH alpha beta (abMaxLoop f beta ms v a)
        (ms.foldl (fun x m => max x (mmc m)) M) := by
  intro ms
  induction ms with
  | nil =>
    intro v M a h1 h2 h3 h4 h5 h6
    show ELH alpha beta v M
    exact ⟨fun hl hr => by omega, fun hl => h4, fun hl => by omega⟩
  | cons m rest ih =>
    intro v M a h1 h2 h3 h4 h5 h6
    obtain ⟨hE, hL, hH⟩ := hf m a h1 h2
    show ELH alpha beta
      (if beta < f m a beta then max v (f m a beta)
       else abMaxLoop f beta rest (max v (f m a beta)) (max a (f m a beta)))
      (List.foldl (fun x m2 => max x (mmc m2)) (max M (mmc m)) rest)
    by_cases hbe : beta < f m a beta
    · rw [if_pos hbe]
      have hmc : f m a beta ≤ mmc m := hH hbe
      have hW : max M (mmc m) ≤
          List.foldl (fun x m2 => max x (mmc m2)) (max M (mmc m)) rest :=
        foldl_max_init_le mmc rest (max M (mmc m))
      exact ⟨fun hl hr => by omega, fun hl => by omega, fun _ => by omega⟩
    · rw [if_neg hbe]
      have hble : f m a beta ≤ beta := not_lt.mp hbe
      have hcase : (a ≤ f m a beta ∧ f m a beta = mmc m) ∨
          (f m a beta < a ∧ mmc m ≤ f m a beta) := by
        rcases le_or_lt a (f m a beta) with h | h
        · exact Or.inl ⟨h, hE h hble⟩
        · exact Or.inr ⟨h, hL h⟩
      exact ih (max v (f m a beta)) (max M (mmc m)) (max a (f m a beta))
        (by omega) (by omega) (by omega) (by omega) (by omega) (by omega)

/-- Loop invariant of the minimizing branch, the mirror image of
`abMaxLoop_ELH` with the running `beta`. -/
theorem abMinLoop_ELH (f : Mv → Int → Int → Int) (mmc : Mv → Int) (alpha beta : Int)
    (hab : alpha ≤ beta)
    (hf : ∀ m b, alpha ≤ b → b ≤ beta → ELH alpha b (f m alpha b) (mmc m)) :
    ∀ (ms : List Mv) (v M b : Int),
      alpha ≤ b → b ≤ beta → min beta v ≤ b →
      v ≤ M → (v ≤ beta → M ≤ v) → min beta M ≤ v →
      ELH alpha beta (abMinLoop f alpha ms v b)
        (ms.foldl (fun x m => min x (mmc m)) M) := by
  intro ms
  induction ms with
  | nil =>
    intro v M b h1 h2 h3 h4 h5 h6
    show ELH alpha beta v M
    exact ⟨fun hl hr => by omega, fun hl => by omega, fun hl => h4⟩
  | cons m rest ih =>
    intro v M b h1 h2 h3 h4 h5 h6
    obtain ⟨hE, hL, hH⟩ := hf m b h1 h2
    show ELH alpha beta
      (if f m alpha b < alpha then min v (f m alpha b)
       else abMinLoop f alpha rest (min v (f m alpha b)) (min b (f m alpha b)))
      (List.foldl (fun x m2 => min x (mmc m2)) (min M (mmc m)) rest)
    by_cases hae : f m alpha b < alpha
    · rw [if_pos hae]
      have hmc : mmc m ≤ f m alpha b := hL hae
      have hW : List.foldl (fun x m2 => min x (mmc m2)) (min M (mmc m)) rest ≤
          min M (mmc m) :=
        foldl_min_le_init mmc rest (min M (mmc m))
      exact ⟨fun hl hr => by omega, fun _ => by omega, fun hl => by omega⟩
    · rw [if_neg hae]
      have hale : alpha ≤ f m alpha b := not_lt.mp hae
      have hcase : (f m alpha b ≤ b ∧ f m alpha b = mmc m) ∨
          (b < f m alpha b ∧ f m alpha b ≤ mmc m) := by
        rcases le_or_lt (f m alpha b) b with h | h
        · exact Or.inl ⟨h, hE hale h⟩
        · exact Or.inr ⟨h, hH h⟩
      exact ih (min v (f m alpha b)) (min M (mmc m)) (min b (f m alpha b))
        (by omega) (by omega) (by omega) (by omega) (by omega) (by omega)

/-- Fail-soft accuracy of `deep_move_evaluation` against `minimax`, for every
window with `alpha ≤ beta`; in particular the two agree on values inside the
closed window. -/
theorem dme_ELH (api : ChessApi Pos Mv Uci) (color : Color) :
    ∀ (d : Nat) (g : Pos) (m : Mv) (alpha beta : Int), alpha ≤ beta →
      ELH alpha beta (deep_move_evaluation api color d g m alpha beta)
        (minimax api color d g m) := by
  intro d
  induction d with
  | zero =>
    intro g m alpha beta hab
    exact ⟨fun _ _ => rfl, fun _ => le_refl _, fun _ => le_refl _⟩
  | succ n ih =>
    intro g m alpha beta hab
    show ELH alpha beta
      (if api.is_game_over (api.play_unchecked g m) then
        evaluate_position api color (api.play_unchecked g m)
       else if api.turn (api.play_unchecked g m) = color then
        abMaxLoop (fun m2 a b => deep_move_evaluation api color n
          (api.play_unchecked g m) m2 a b) beta
          (api.legal_moves (api.play_unchecked g m)) MIN_EVAL alpha
       else
        abMinLoop (fun m2 a b => deep_move_evaluation api color n
          (api.play_unchecked g m) m2 a b) alpha
          (api.legal_moves (api.play_unchecked g m)) MAX_EVAL beta)
      (if api.is_game_over (api.play_unchecked g m) then
        evaluate_position api color (api.play_unchecked g m)
       else if api.turn (api.play_unchecked g m) = color then
        (api.legal_moves (api.play_unchecked g m)).foldl
          (fun v m2 => max v (minimax api color n (api.play_unchecked g m) m2)) MIN_EVAL
       else
        (api.legal_moves (api.play_unchecked g m)).foldl
          (fun v m2 => min v (minimax api color n (api.play_unchecked g m) m2)) MAX_EVAL)
    split
    · exact ⟨fun _ _ => rfl, fun _ => le_refl _, fun _ => le_refl _⟩
    · split
      · exact abMaxLoop_ELH _ _ alpha beta hab
          (fun m2 a ha hb => ih (api.play_unchecked g m) m2 a beta hb)
          (api.legal_moves (api.play_unchecked g m)) MIN_EVAL MIN_EVAL alpha
          (le_refl alpha) hab (le_max_left alpha MIN_EVAL)
          (le_refl MIN_EVAL) (fun _ => le_refl MIN_EVAL) (le_max_right alpha MIN_EVAL)
      · exact abMinLoop_ELH _ _ alpha beta hab
          (fun m2 b ha hb => ih (api.play_unchecked g m) m2 alpha b ha)
          (api.legal_moves (api.play_unchecked g m)) MAX_EVAL MAX_EVAL beta
          hab (le_refl beta) (min_le_left beta MAX_EVAL)
          (le_refl MAX_EVAL) (fun _ => le_refl MAX_EVAL) (min_le_right beta MAX_EVAL)

/-! ## Bounds of the search values -/

/-- The maximizing loop keeps its value inside any interval containing both
its seed and all child values. -/
theorem abMaxLoop_bounds (f : Mv → Int → Int → Int) (beta lo hi : Int)
    (hf : ∀ m a, lo ≤ f m a beta ∧ f m a beta ≤ hi) :
    ∀ (ms : List Mv) (v a : Int), lo ≤ v → v ≤ hi →
      lo ≤ abMaxLoop f beta ms v a ∧ abMaxLoop f beta ms v a ≤ hi := by
  intro ms
  induction ms with
  | nil =>
    intro v a hv1 hv2
    exact ⟨hv1, hv2⟩
  | cons m rest ih =>
    intro v a hv1 hv2
    have hm := hf m a
    show lo ≤ (if beta < f m a beta then max v (f m a beta)
        else abMaxLoop f beta rest (max v (f m a beta)) (max a (f m a beta))) ∧
      (if beta < f m a beta then max v (f m a beta)
        else abMaxLoop f beta rest (max v (f m a beta)) (max a (f m a beta))) ≤ hi
    split
    · constructor <;> omega
    · exact ih (max v (f m a beta)) (max a (f m a beta)) (by omega) (by omega)

/-- The minimizing loop keeps its value inside any interval containing both
its seed and all child values. -/
theorem abMinLoop_bounds (f : Mv → Int → Int → Int) (alpha lo hi : Int)
    (hf : ∀ m b, lo ≤ f m alpha b ∧ f m alpha b ≤ hi) :
    ∀ (ms : List Mv) (v b : Int), lo ≤ v → v ≤ hi →
      lo ≤ abMinLoop f alpha ms v b ∧ abMinLoop f alpha ms v b ≤ hi := by
  intro ms
  induction ms with
  | nil =>
    intro v b hv1 hv2
    exact ⟨hv1, hv2⟩
  | cons m rest ih =>
    intro v b hv1 hv2
    have hm := hf m b
    show lo ≤ (if f m alpha b < alpha then min v (f m alpha b)
        else abMinLoop f alpha rest (min v (f m alpha b)) (min b (f m alpha b))) ∧
      (if f m alpha b < alpha then min v (f m alpha b)
        else abMinLoop f alpha rest (min v (f m alpha b)) (min b (f m alpha b))) ≤ hi
    split
    · constructor <;> omega
    · exact ih (min v (f m alpha b)) (min b (f m alpha b)) (by omega) (by omega)

/-- When every leaf evaluation lies in `[MIN_EVAL, MAX_EVAL]` (true of every
real position: material stays within ±103 and mate scores within
±(1_000_000 - 1)), so does every value of `deep_move_evaluation`. -/
theorem dme_bounds (api : ChessApi Pos Mv Uci) (color : Color)
    (hb : ∀ p, MIN_EVAL ≤ evaluate_position api color p ∧
      evaluate_position api color p ≤ MAX_EVAL) :
    ∀ (d : Nat) (g : Pos) (m : Mv) (alpha beta : Int),
      MIN_EVAL ≤ deep_move_evaluation api color d g m alpha beta ∧
        deep_move_evaluation api color d g m alpha beta ≤ MAX_EVAL := by
  have hmm : MIN_EVAL ≤ MAX_EVAL := by norm_num [MIN_EVAL, MAX_EVAL]
  intro d
  induction d with
  | zero =>
    intro g m alpha beta
    exact hb (api.play_unchecked g m)
  | succ n ih =>
    intro g m alpha beta
    rw [show deep_move_evaluation api color (n + 1) g m alpha beta =
      (if api.is_game_over (api.play_unchecked g m) then
        evaluate_position api color (api.play_unchecked g m)
       else if api.turn (api.play_unchecked g m) = color then
        abMaxLoop (fun m2 a b => deep_move_evaluation api color n
          (api.play_unchecked g m) m2 a b) beta
          (api.legal_moves (api.play_unchecked g m)) MIN_EVAL alpha
       else
        abMinLoop (fun m2 a b => deep_move_evaluation api color n
          (api.play_unchecked g m) m2 a b) alpha
          (api.legal_moves (api.play_unchecked g m)) MAX_EVAL beta) from rfl]
    split
    · exact hb (api.play_unchecked g m)
    · split
      · exact abMaxLoop_bounds _ beta MIN_EVAL MAX_EVAL
          (fun m2 a => ih (api.play_unchecked g m) m2 a beta)
          (api.legal_moves (api.play_unchecked g m)) MIN_EVAL alpha (le_refl _) hmm
      · exact abMinLoop_bounds _ alpha MIN_EVAL MAX_EVAL
          (fun m2 b => ih (api.play_unchecked g m) m2 alpha b)
          (api.legal_moves (api.play_unchecked g m)) MAX_EVAL beta hmm (le_refl _)

/-- A `max`-fold stays inside any interval containing its seed and its
entries. -/
theorem foldl_max_bounds (mmc : Mv → Int) (lo hi : Int)
    (hf : ∀ m, lo ≤ mmc m ∧ mmc m ≤ hi) :
    ∀ (ms : List Mv) (v : Int), lo ≤ v → v ≤ hi →
      lo ≤ ms.foldl (fun x m => max x (mmc m)) v ∧
        ms.foldl (fun x m => max x (mmc m)) v ≤ hi := by
  intro ms
  induction ms with
  | nil =>
    intro v hv1 hv2
    exact ⟨hv1, hv2⟩
  | cons m rest ih =>
    intro v hv1 hv2
    have hm := hf m
    exact ih (max v (mmc m)) (by omega) (by omega)

/-- A `min`-fold stays inside any interval containing its seed and its
entries. -/
theorem foldl_min_bounds (mmc : Mv → Int) (lo hi : Int)
    (hf : ∀ m, lo ≤ mmc m ∧ mmc m ≤ hi) :
    ∀ (ms : List Mv) (v : Int), lo ≤ v → v ≤ hi →
      lo ≤ ms.foldl (fun x m => min x (mmc m)) v ∧
        ms.foldl (fun x m => min x (mmc m)) v ≤ hi := by
  intro ms
  induction ms with
  | nil =>
    intro v hv1 hv2
    exact ⟨hv1, hv2⟩
  | cons m rest ih =>
    intro v hv1 hv2
    have hm := hf m
    exact ih (min v (mmc m)) (by omega) (by omega)

/-- `minimax` values also lie in `[MIN_EVAL, MAX_EVAL]` when the leaf
evaluations do. -/
theorem minimax_bounds (api : ChessApi Pos Mv Uci) (color : Color)
    (hb : ∀ p, MIN_EVAL ≤ evaluate_position api color p ∧
      evaluate_position api color p ≤ MAX_EVAL) :
    ∀ (d : Nat) (g : Pos) (m : Mv),
      MIN_EVAL ≤ minimax api color d g m ∧ minimax api color d g m ≤ MAX_EVAL := by
  have hmm : MIN_EVAL ≤ MAX_EVAL := by norm_num [MIN_EVAL, MAX_EVAL]
  intro d
  induction d with
  | zero =>
    intro g m
    exact hb (api.play_unchecked g m)
  | succ n ih =>
    intro g m
    rw [show minimax api color (n + 1) g m =
      (if api.is_game_over (api.play_unchecked g m) then
        evaluate_position api color (api.play_unchecked g m)
       else if api.turn (api.play_unchecked g m) = color then
        (api.legal_moves (api.play_unchecked g m)).foldl
          (fun v m2 => max v (minimax api color n (api.play_unchecked g m) m2)) MIN_EVAL
       else
        (api.legal_moves (api.play_unchecked g m)).foldl
          (fun v m2 => min v (minimax api color n (api.play_unchecked g m) m2)) MAX_EVAL)
      from rfl]
    split
    · exact hb (api.play_unchecked g m)
    · split
      · exact foldl_max_bounds _ MIN_EVAL MAX_EVAL (fun m2 => ih (api.play_unchecked g m) m2)
          (api.legal_moves (api.play_unchecked g m)) MIN_EVAL (le_refl _) hmm
      · exact foldl_min_bounds _ MIN_EVAL MAX_EVAL (fun m2 => ih (api.play_unchecked g m) m2)
          (api.legal_moves (api.play_unchecked g m)) MAX_EVAL hmm (le_refl _)

/-! ## The root pass: pruned scores vs unpruned scores -/

/-- The root evaluation pass visits exactly the moves in `order`. -/
theorem rootEvals_map_fst (api : ChessApi Pos Mv Uci) (color : Color) (d : Nat)
    (g : Pos) : ∀ (ms : List Mv) (alpha : Int),
    (rootEvals api color d g alpha ms).map Prod.fst = ms := by
  intro ms
  induction ms with
  | nil => intro alpha; rfl
  | cons m rest ih =>
    intro alpha
    show m :: (rootEvals api color d g _ rest).map Prod.fst = m :: rest
    rw [ih]

theorem rootEvals_length (api : ChessApi Pos Mv Uci) (color : Color) (d : Nat)
    (g : Pos) (ms : List Mv) (alpha : Int) :
    (rootEvals api color d g alpha ms).length = ms.length := by
  have h := congrArg List.length (rootEvals_map_fst api color d g ms alpha)
  simpa using h

theorem rootEvalsU_map_fst (api : ChessApi Pos Mv Uci) (color : Color) (d : Nat)
    (g : Pos) (ms : List Mv) :
    (rootEvalsU api color d g ms).map Prod.fst = ms := by
  induction ms with
  | nil => rfl
  | cons m rest ih =>
    show m :: (rootEvalsU api color d g rest).map Prod.fst = m :: rest
    rw [ih]

theorem rootEvalsU_length (api : ChessApi Pos Mv Uci) (color : Color) (d : Nat)
    (g : Pos) (ms : List Mv) :
    (rootEvalsU api color d g ms).length = ms.length := by
  simp [rootEvalsU]

/-- The seed of a plain `max`-fold over integers bounds its result. -/
theorem int_foldl_max_init_le : ∀ (l : List Int) (x : Int), x ≤ l.foldl max x := by
  intro l
  induction l with
  | nil => intro x; exact le_refl x
  | cons y rest ih =>
    intro x
    exact le_trans (le_max_left x y) (ih (max x y))

/-- Every entry of a plain `max`-fold bounds its result. -/
theorem int_foldl_max_mem_le : ∀ (l : List Int) (x y : Int), y ∈ l → y ≤ l.foldl max x := by
  intro l
  induction l with
  | nil => intro x y hy; cases hy
  | cons z rest ih =>
    intro x y hy
    rcases List.mem_cons.mp hy with h | h
    · subst h
      exact le_trans (le_max_right x y) (int_foldl_max_init_le rest (max x y))
    · exact ih (max x z) y h

/-- A plain `max`-fold is bounded by any common upper bound of its seed and
entries. -/
theorem int_foldl_max_le : ∀ (l : List Int) (x c : Int), x ≤ c → (∀ y ∈ l, y ≤ c) →
    l.foldl max x ≤ c := by
  intro l
  induction l with
  | nil => intro x c hx _; exact hx
  | cons z rest ih =>
    intro x c hx hall
    refine ih (max x z) c ?_ (fun y hy => hall y (List.mem_cons_of_mem z hy))
    have := hall z (List.mem_cons_self z rest)
    omega

/-- A plain `max`-fold equals any entry that dominates the seed and all
entries. -/
theorem int_foldl_max_eq (l : List Int) (x c : Int) (hc : c ∈ l)
    (hub : ∀ y ∈ l, y ≤ c) (hx : x ≤ c) : l.foldl max x = c :=
  le_antisymm (int_foldl_max_le l x c hx hub) (int_foldl_max_mem_le l x c hc)

/-- Relation between the pruned root pass (threaded alpha) and the unpruned
root pass: the running maxima agree, every pruned score is bounded by the
overall maximum `B`, and a pruned score attains `B` exactly when the true
minimax score of the same move does.  This is the heart of C1: the top of
the ranking — value and tie set — is invariant under pruning. -/
theorem rootEvals_rel (api : ChessApi Pos Mv Uci) (color : Color) (d : Nat) (g : Pos)
    (hb : ∀ p, MIN_EVAL ≤ evaluate_position api color p ∧
      evaluate_position api color p ≤ MAX_EVAL) :
    ∀ (ms : List Mv) (alpha : Int), alpha ≤ MAX_EVAL →
      (((rootEvals api color d g alpha ms).map Prod.snd).foldl max alpha =
        ((rootEvalsU api color d g ms).map Prod.snd).foldl max alpha) ∧
      ∀ (i : Nat) (hP : i < (rootEvals api color d g alpha ms).length)
        (hU : i < (rootEvalsU api color d g ms).length),
        ((rootEvals api color d g alpha ms).get ⟨i, hP⟩).2 ≤
          ((rootEvalsU api color d g ms).map Prod.snd).foldl max alpha ∧
        (((rootEvals api color d g alpha ms).get ⟨i, hP⟩).2 =
            ((rootEvalsU api color d g ms).map Prod.snd).foldl max alpha ↔
          ((rootEvalsU api color d g ms).get ⟨i, hU⟩).2 =
            ((rootEvalsU api color d g ms).map Prod.snd).foldl max alpha) := by
  intro ms
  induction ms with
  | nil =>
    intro alpha halpha
    exact ⟨rfl, fun i hP hU => absurd hP (by simp [rootEvals])⟩
  | cons m rest ih =>
    intro alpha halpha
    obtain ⟨hE, hL, hH⟩ := dme_ELH api color d g m alpha MAX_EVAL halpha
    have hbd := dme_bounds api color hb d g m alpha MAX_EVAL
    have hcase : (alpha ≤ deep_move_evaluation api color d g m alpha MAX_EVAL ∧
        deep_move_evaluation api color d g m alpha MAX_EVAL = minimax api color d g m) ∨
        (deep_move_evaluation api color d g m alpha MAX_EVAL < alpha ∧
          minimax api color d g m ≤ deep_move_evaluation api color d g m alpha MAX_EVAL) := by
      rcases le_or_lt alpha (deep_move_evaluation api color d g m alpha MAX_EVAL) with h | h
      · exact Or.inl ⟨h, hE h hbd.2⟩
      · exact Or.inr ⟨h, hL h⟩
    have halpha2 : max alpha (deep_move_evaluation api color d g m alpha MAX_EVAL) ≤
        MAX_EVAL := by omega
    obtain ⟨ih1, ih2⟩ := ih (max alpha (deep_move_evaluation api color d g m alpha MAX_EVAL))
      halpha2
    have hmaxeq : max alpha (deep_move_evaluation api color d g m alpha MAX_EVAL) =
        max alpha (minimax api color d g m) := by omega
    have hPcons : rootEvals api color d g alpha (m :: rest) =
        (m, deep_move_evaluation api color d g m alpha MAX_EVAL) ::
          rootEvals api color d g
            (max alpha (deep_move_evaluation api color d g m alpha MAX_EVAL)) rest := rfl
    have hUcons : rootEvalsU api color d g (m :: rest) =
        (m, minimax api color d g m) :: rootEvalsU api color d g rest := rfl
    have hBfull : ((rootEvalsU api color d g (m :: rest)).map Prod.snd).foldl max alpha =
        ((rootEvalsU api color d g rest).map Prod.snd).foldl max
          (max alpha (deep_move_evaluation api color d g m alpha MAX_EVAL)) := by
      rw [hUcons, List.map_cons, List.foldl_cons, hmaxeq]
    have hgoal1 : ((rootEvals api color d g alpha (m :: rest)).map Prod.snd).foldl max alpha =
        ((rootEvalsU api color d g (m :: rest)).map Prod.snd).foldl max alpha := by
      rw [hPcons, List.map_cons, List.foldl_cons, hBfull]
      exact ih1
    refine ⟨hgoal1, ?_⟩
    intro i hP hU
    have hBge : max alpha (minimax api color d g m) ≤
        ((rootEvalsU api color d g (m :: rest)).map Prod.snd).foldl max alpha := by
      rw [hBfull, ← hmaxeq]
      exact int_foldl_max_init_le _ _
    match i with
    | 0 =>
      show deep_move_evaluation api color d g m alpha MAX_EVAL ≤ _ ∧
        (deep_move_evaluation api color d g m alpha MAX_EVAL = _ ↔ minimax api color d g m = _)
      constructor
      · omega
      · constructor
        · intro h
          omega
        · intro h
          omega
    | Nat.succ j =>
      have hPj : j < (rootEvals api color d g
          (max alpha (deep_move_evaluation api color d g m alpha MAX_EVAL)) rest).length := by
        rw [rootEvals_length]
        rw [hPcons] at hP
        simp only [List.length_cons] at hP
        rw [rootEvals_length] at hP
        omega
      have hUj : j < (rootEvalsU api color d g rest).length := by
        rw [rootEvalsU_length]
        rw [hUcons] at hU
        simp only [List.length_cons] at hU
        rw [rootEvalsU_length] at hU
        omega
      have hstep := ih2 j hPj hUj
      show ((rootEvals api color d g
          (max alpha (deep_move_evaluation api color d g m alpha MAX_EVAL)) rest).get
            ⟨j, hPj⟩).2 ≤ _ ∧
        (((rootEvals api color d g
          (max alpha (deep_move_evaluation api color d g m alpha MAX_EVAL)) rest).get
            ⟨j, hPj⟩).2 = _ ↔
          ((rootEvalsU api color d g rest).get ⟨j, hUj⟩).2 = _)
      rw [hBfull]
      exact hstep

/-! ## Characterization of `chooseBest`: the last maximal entry wins

`sort_by_key` is stable and ascending; reversing it and taking the head
therefore yields the entry with the maximal key that occurs last in the
input. -/

/-- Two positions of a list in order yield a two-element sublist. -/
theorem pair_sublist_of_lt {α : Type} :
    ∀ (l : List α) (i j : Nat) (hi : i < l.length) (hj : j < l.length), i < j →
      List.Sublist [l.get ⟨i, hi⟩, l.get ⟨j, hj⟩] l := by
  intro l
  induction l with
  | nil =>
    intro i j hi hj hij
    cases hi
  | cons a t ih =>
    intro i j hi hj hij
    match i, j with
    | 0, Nat.succ j2 =>
      show List.Sublist [a, t.get ⟨j2, _⟩] (a :: t)
      exact List.Sublist.cons₂ a (List.singleton_sublist.mpr (t.get_mem j2 _))
    | Nat.succ i2, Nat.succ j2 =>
      have hlen : (a :: t).length = t.length + 1 := rfl
      show List.Sublist [t.get ⟨i2, _⟩, t.get ⟨j2, _⟩] (a :: t)
      exact List.Sublist.cons a (ih i2 j2 (by omega) (by omega) (by omega))

/-- A two-element sublist splits its host around the first element, with the
second element occurring strictly later. -/
theorem pair_sublist_split {α : Type} {a b : α} :
    ∀ {s : List α}, List.Sublist [a, b] s → ∃ u v, s = u ++ a :: v ∧ b ∈ v := by
  intro s
  induction s with
  | nil =>
    intro h
    cases h
  | cons c t ih =>
    intro h
    cases h with
    | cons _ h2 =>
      obtain ⟨u, v, heq, hb⟩ := ih h2
      exact ⟨c :: u, v, by rw [heq]; rfl, hb⟩
    | cons₂ _ h2 =>
      exact ⟨[], t, rfl, List.singleton_sublist.mp h2⟩

/-- The sort key comparison used by `chooseBest` is transitive. -/
theorem chooseLe_trans (a b c : Mv × Int) :
    (fun x y : Mv × Int => decide (x.2 ≤ y.2)) a b = true →
    (fun x y : Mv × Int => decide (x.2 ≤ y.2)) b c = true →
    (fun x y : Mv × Int => decide (x.2 ≤ y.2)) a c = true := by
  simp only [decide_eq_true_eq]
  omega

/-- The sort key comparison used by `chooseBest` is total. -/
theorem chooseLe_total (a b : Mv × Int) :
    ((fun x y : Mv × Int => decide (x.2 ≤ y.2)) a b ||
      (fun x y : Mv × Int => decide (x.2 ≤ y.2)) b a) = true := by
  simp only [Bool.or_eq_true, decide_eq_true_eq]
  omega

/-- `chooseBest` returns an entry of the list that carries the maximal key
and, among entries with the maximal key, occurs last (stability of
`sort_by_key` plus the `reverse`). -/
theorem chooseBest_spec (l : List (Mv × Int)) (hne : l ≠ []) (hnd : l.Nodup) :
    ∃ (i : Nat) (hi : i < l.length), chooseBest l = some (l.get ⟨i, hi⟩) ∧
      (∀ (j : Nat) (hj : j < l.length), (l.get ⟨j, hj⟩).2 ≤ (l.get ⟨i, hi⟩).2) ∧
      (∀ (j : Nat) (hj : j < l.length), i < j →
        (l.get ⟨j, hj⟩).2 < (l.get ⟨i, hi⟩).2) := by
  have hlen0 : l.length ≠ 0 := fun h => hne (List.length_eq_zero.mp h)
  have hs_len : (l.mergeSort (fun x y => decide (x.2 ≤ y.2))).length = l.length :=
    List.length_mergeSort l
  have hs_ne : l.mergeSort (fun x y => decide (x.2 ≤ y.2)) ≠ [] := by
    intro h
    rw [h] at hs_len
    exact hlen0 hs_len.symm
  have hperm : (l.mergeSort (fun x y => decide (x.2 ≤ y.2))).Perm l :=
    List.mergeSort_perm l _
  have hcb : chooseBest l =
      some ((l.mergeSort (fun x y => decide (x.2 ≤ y.2))).getLast hs_ne) := by
    unfold chooseBest
    rw [List.head?_reverse]
    exact List.getLast?_eq_getLast _ hs_ne
  have hxmem : (l.mergeSort (fun x y => decide (x.2 ≤ y.2))).getLast hs_ne ∈ l :=
    hperm.mem_iff.mp (List.getLast_mem hs_ne)
  obtain ⟨⟨i, hi⟩, hxi⟩ := List.mem_iff_get.mp hxmem
  have hsort : List.Pairwise (fun a b : Mv × Int => decide (a.2 ≤ b.2) = true)
      (l.mergeSort (fun x y => decide (x.2 ≤ y.2))) :=
    List.sorted_mergeSort chooseLe_trans chooseLe_total l
  have hmax : ∀ (y : Mv × Int), y ∈ l →
      y.2 ≤ ((l.mergeSort (fun x y => decide (x.2 ≤ y.2))).getLast hs_ne).2 := by
    intro y hy
    have hy2 : y ∈ l.mergeSort (fun x y => decide (x.2 ≤ y.2)) := hperm.mem_iff.mpr hy
    rw [← List.dropLast_append_getLast hs_ne] at hy2 hsort
    rcases List.mem_append.mp hy2 with hdl | hsing
    · have := (List.pairwise_append.mp hsort).2.2 y hdl _ (List.mem_singleton.mpr rfl)
      exact of_decide_eq_true this
    · rw [List.mem_singleton.mp hsing]
  refine ⟨i, hi, by rw [hcb, hxi], fun j hj => by rw [hxi]; exact hmax _ (l.get_mem j hj), ?_⟩
  intro j hj hij
  by_contra hcon
  have hxj : ((l.mergeSort (fun x y => decide (x.2 ≤ y.2))).getLast hs_ne).2 ≤
      (l.get ⟨j, hj⟩).2 := by
    rw [hxi] at hcon
    omega
  have hpair : List.Sublist [l.get ⟨i, hi⟩, l.get ⟨j, hj⟩] l :=
    pair_sublist_of_lt l i j hi hj hij
  have hpair_s : List.Sublist [l.get ⟨i, hi⟩, l.get ⟨j, hj⟩]
      (l.mergeSort (fun x y => decide (x.2 ≤ y.2))) := by
    refine List.pair_sublist_mergeSort chooseLe_trans chooseLe_total ?_ hpair
    rw [hxi]
    exact decide_eq_true hxj
  obtain ⟨u, v, hs_eq, hbv⟩ := pair_sublist_split hpair_s
  have hv_ne : v ≠ [] := by
    intro h
    rw [h] at hbv
    cases hbv
  have hlast_v : ((l.mergeSort (fun x y => decide (x.2 ≤ y.2))).getLast hs_ne) ∈ v := by
    have ha : v.getLast? = some (v.getLast hv_ne) := List.getLast?_eq_getLast v hv_ne
    have hs_q : (l.mergeSort (fun x y => decide (x.2 ≤ y.2))).getLast? =
        some (v.getLast hv_ne) := by
      rw [hs_eq]
      rw [List.getLast?_append]
      have : (l.get ⟨i, hi⟩ :: v).getLast? = some (v.getLast hv_ne) := by
        have h2 : l.get ⟨i, hi⟩ :: v = [l.get ⟨i, hi⟩] ++ v := rfl
        rw [h2, List.getLast?_append, ha]
        rfl
      rw [this]
      rfl
    have hs_q2 : (l.mergeSort (fun x y => decide (x.2 ≤ y.2))).getLast? =
        some ((l.mergeSort (fun x y => decide (x.2 ≤ y.2))).getLast hs_ne) :=
      List.getLast?_eq_getLast _ hs_ne
    rw [hs_q] at hs_q2
    rw [← Option.some_inj.mp hs_q2]
    exact List.mem_of_getLast?_eq_some ha
  have hnds : (l.mergeSort (fun x y => decide (x.2 ≤ y.2))).Nodup :=
    hperm.nodup_iff.mpr hnd
  rw [hs_eq] at hnds
  have hnd2 : (l.get ⟨i, hi⟩ :: v).Nodup := (List.nodup_append.mp hnds).2.1
  have hnotin : l.get ⟨i, hi⟩ ∉ v := (List.nodup_cons.mp hnd2).1
  rw [← hxi] at hlast_v
  exact hnotin hlast_v

/-- There is at most one position holding the maximum that is strict over
all later positions. -/
theorem lastmax_unique (l : List (Mv × Int)) (i j : Nat)
    (hi : i < l.length) (hj : j < l.length)
    (hmaxi : ∀ (k : Nat) (hk : k < l.length), (l.get ⟨k, hk⟩).2 ≤ (l.get ⟨i, hi⟩).2)
    (hlasti : ∀ (k : Nat) (hk : k < l.length), i < k →
      (l.get ⟨k, hk⟩).2 < (l.get ⟨i, hi⟩).2)
    (hmaxj : ∀ (k : Nat) (hk : k < l.length), (l.get ⟨k, hk⟩).2 ≤ (l.get ⟨j, hj⟩).2)
    (hlastj : ∀ (k : Nat) (hk : k < l.length), j < k →
      (l.get ⟨k, hk⟩).2 < (l.get ⟨j, hj⟩).2) : i = j := by
  rcases lt_trichotomy i j with h | h | h
  · have h1 := hlasti j hj h
    have h2 := hmaxi j hj
    have h3 := hmaxj i hi
    omega
  · exact h
  · have h1 := hlastj i hi h
    have h2 := hmaxj i hi
    have h3 := hmaxi j hj
    omega

/-! ## C2: the search contract -/

/-- `search` on an empty root table or a finished game returns `None` and
leaves the state untouched. -/
theorem search_none_of (api : ChessApi Pos Mv Uci) (self : MainEngine Pos)
    (order : List Mv) (h : (order.isEmpty || api.is_game_over self.game) = true) :
    MainEngine.search api self order = (none, self) := by
  unfold MainEngine.search
  rw [h]
  simp

/-- On a live root, the move returned by `search` is the first component of
the pair chosen from the root evaluation list. -/
theorem search_fst_eq (api : ChessApi Pos Mv Uci) (self : MainEngine Pos)
    (order : List Mv) (h : (order.isEmpty || api.is_game_over self.game) = false) :
    (MainEngine.search api self order).1 =
      Option.map Prod.fst
        (chooseBest (rootEvals api self.color 3 self.game ROOT_ALPHA order)) := by
  unfold MainEngine.search
  rw [h]
  simp only [Bool.false_eq_true, if_false, rootEvalsS_fst]
  rcases chooseBest (rootEvals api self.color (4 - 1) self.game ROOT_ALPHA order) with
    _ | ⟨m, b⟩ <;> rfl

/-- C2: for a position with at least one legal move that is not game over,
`search` returns `Some` move belonging to the legal-move set; on a terminal
position or one without legal moves it returns `None`. -/
theorem search_legal_or_none (api : ChessApi Pos Mv Uci) (self : MainEngine Pos)
    (order : List Mv) (hperm : order.Perm (api.legal_moves self.game))
    (hnd : (api.legal_moves self.game).Nodup) :
    (api.legal_moves self.game ≠ [] → api.is_game_over self.game = false →
      ∃ m, (MainEngine.search api self order).1 = some m ∧
        m ∈ api.legal_moves self.game) ∧
    ((api.legal_moves self.game = [] ∨ api.is_game_over self.game = true) →
      (MainEngine.search api self order).1 = none) := by
  constructor
  · intro hlegal hgo
    have hone : order ≠ [] := by
      intro h
      rw [h] at hperm
      exact hlegal hperm.symm.eq_nil
    have h1 : order.isEmpty = false := by
      cases order with
      | nil => exact absurd rfl hone
      | cons a t => rfl
    have hcond : (order.isEmpty || api.is_game_over self.game) = false := by
      rw [h1, hgo]
      rfl
    rw [search_fst_eq api self order hcond]
    have hf := rootEvals_map_fst api self.color 3 self.game order ROOT_ALPHA
    have hRlen : (rootEvals api self.color 3 self.game ROOT_ALPHA order).length =
        order.length := rootEvals_length api self.color 3 self.game order ROOT_ALPHA
    have hRne : rootEvals api self.color 3 self.game ROOT_ALPHA order ≠ [] := by
      intro h
      rw [h] at hRlen
      have : order = [] := List.length_eq_zero.mp hRlen.symm
      exact hone this
    have hRnd : (rootEvals api self.color 3 self.game ROOT_ALPHA order).Nodup := by
      have hond : order.Nodup := hperm.nodup_iff.mpr hnd
      rw [← hf] at hond
      exact hond.of_map Prod.fst
    obtain ⟨i, hi, hcb, hmax, hlast⟩ := chooseBest_spec _ hRne hRnd
    rw [hcb]
    refine ⟨((rootEvals api self.color 3 self.game ROOT_ALPHA order).get ⟨i, hi⟩).1,
      rfl, ?_⟩
    have hmem : ((rootEvals api self.color 3 self.game ROOT_ALPHA order).get ⟨i, hi⟩).1 ∈
        (rootEvals api self.color 3 self.game ROOT_ALPHA order).map Prod.fst :=
      List.mem_map_of_mem Prod.fst (List.get_mem _ i hi)
    rw [hf] at hmem
    exact hperm.mem_iff.mp hmem
  · intro h
    have hcond : (order.isEmpty || api.is_game_over self.game) = true := by
      rcases h with h | h
      · rw [h] at hperm
        rw [hperm.eq_nil]
        rfl
      · rw [h]
        simp
    rw [search_none_of api self order hcond]

theorem search_legal_or_none_witness :
    (∃ m, (MainEngine.search demoApi ⟨false, Color.White, StatsSubsystem.new⟩ [0, 1]).1 =
        some m ∧ m ∈ demoApi.legal_moves false) ∧
    (MainEngine.search demoApi ⟨true, Color.White, StatsSubsystem.new⟩ []).1 = none := by
  constructor
  · exact (search_legal_or_none demoApi ⟨false, Color.White, StatsSubsystem.new⟩ [0, 1]
      (by decide) (by decide)).1 (by decide) (by decide)
  · exact (search_legal_or_none demoApi ⟨true, Color.White, StatsSubsystem.new⟩ []
      (by decide) (by decide)).2 (Or.inr (by decide))

/-! ## Reduction lemmas for the two search pipelines -/

/-- On a live root, `search` returns the chosen pair's move and records the
chosen pair's score as `current_target_eval`. -/
theorem search_choose (api : ChessApi Pos Mv Uci) (self : MainEngine Pos)
    (order : List Mv) (h : (order.isEmpty || api.is_game_over self.game) = false)
    (x : Mv × Int)
    (hx : chooseBest (rootEvals api self.color 3 self.game ROOT_ALPHA order) = some x) :
    (MainEngine.search api self order).1 = some x.1 ∧
    (MainEngine.search api self order).2.stats.current_target_eval = x.2 := by
  rcases x with ⟨m, b⟩
  unfold MainEngine.search
  rw [h]
  simp only [Bool.false_eq_true, if_false, rootEvalsS_fst, show (4 : Nat) - 1 = 3 from rfl]
  rw [hx]
  exact ⟨rfl, rfl⟩

/-- `search_unpruned` on an empty root table or a finished game returns
`None` and leaves the state untouched. -/
theorem searchU_none_of (api : ChessApi Pos Mv Uci) (self : MainEngine Pos)
    (order : List Mv) (h : (order.isEmpty || api.is_game_over self.game) = true) :
    search_unpruned api self order = (none, self) := by
  unfold search_unpruned
  rw [h]
  simp

/-- On a live root, `search_unpruned` returns the chosen pair's move and
records the chosen pair's score. -/
theorem searchU_choose (api : ChessApi Pos Mv Uci) (self : MainEngine Pos)
    (order : List Mv) (h : (order.isEmpty || api.is_game_over self.game) = false)
    (x : Mv × Int)
    (hx : chooseBest (rootEvalsU api self.color 3 self.game order) = some x) :
    (search_unpruned api self order).1 = some x.1 ∧
    (search_unpruned api self order).2.stats.current_target_eval = x.2 := by
  rcases x with ⟨m, b⟩
  unfold search_unpruned
  rw [h]
  simp only [Bool.false_eq_true, if_false, show (4 : Nat) - 1 = 3 from rfl]
  rw [hx]
  exact ⟨rfl, rfl⟩

/-- Entry lookup in the unpruned root list. -/
theorem rootEvalsU_get (api : ChessApi Pos Mv Uci) (color : Color) (d : Nat) (g : Pos) :
    ∀ (ms : List Mv) (i : Nat) (hi : i < (rootEvalsU api color d g ms).length)
      (hi2 : i < ms.length),
      (rootEvalsU api color d g ms).get ⟨i, hi⟩ =
        (ms.get ⟨i, hi2⟩, minimax api color d g (ms.get ⟨i, hi2⟩)) := by
  intro ms
  induction ms with
  | nil =>
    intro i hi hi2
    cases hi2
  | cons m rest ih =>
    intro i hi hi2
    match i with
    | 0 => rfl
    | Nat.succ j =>
      have hj2 : j < rest.length := by
        have hlen : (m :: rest).length = rest.length + 1 := rfl
        omega
      have hj : j < (rootEvalsU api color d g rest).length := by
        rw [rootEvalsU_length]
        exact hj2
      show (rootEvalsU api color d g rest).get ⟨j, hj⟩ = _
      exact ih j hj hj2

/-- The move component of an entry of the pruned root list. -/
theorem rootEvals_get_fst (api : ChessApi Pos Mv Uci) (color : Color) (d : Nat)
    (g : Pos) :
    ∀ (ms : List Mv) (alpha : Int) (i : Nat)
      (hi : i < (rootEvals api color d g alpha ms).length) (hi2 : i < ms.length),
      ((rootEvals api color d g alpha ms).get ⟨i, hi⟩).1 = ms.get ⟨i, hi2⟩ := by
  intro ms
  induction ms with
  | nil =>
    intro alpha i hi hi2
    cases hi2
  | cons m rest ih =>
    intro alpha i hi hi2
    match i with
    | 0 => rfl
    | Nat.succ j =>
      have hj2 : j < rest.length := by
        have hlen : (m :: rest).length = rest.length + 1 := rfl
        omega
      have hj : j < (rootEvals api color d g
          (max alpha (deep_move_evaluation api color d g m alpha MAX_EVAL)) rest).length := by
        rw [rootEvals_length]
        exact hj2
      show ((rootEvals api color d g
          (max alpha (deep_move_evaluation api color d g m alpha MAX_EVAL)) rest).get
            ⟨j, hj⟩).1 = _
      exact ih (max alpha (deep_move_evaluation api color d g m alpha MAX_EVAL)) j hj hj2

/-- C1: alpha-beta pruning does not change the decision.  For every position,
every root iteration order and every bot color, provided the leaf evaluations
lie in `[MIN_EVAL, MAX_EVAL]` (true of every real position), the pruning
`search` returns the same move as the unpruned full-minimax pipeline over the
same tree and depth, and records the same chosen score. -/
theorem search_eq_search_unpruned (api : ChessApi Pos Mv Uci) (self : MainEngine Pos)
    (order : List Mv)
    (hb : ∀ p, MIN_EVAL ≤ evaluate_position api self.color p ∧
      evaluate_position api self.color p ≤ MAX_EVAL)
    (hnd : order.Nodup) :
    (MainEngine.search api self order).1 = (search_unpruned api self order).1 ∧
    (MainEngine.search api self order).2.stats.current_target_eval =
      (search_unpruned api self order).2.stats.current_target_eval := by
  by_cases hcond : (order.isEmpty || api.is_game_over self.game) = true
  · rw [search_none_of api self order hcond, searchU_none_of api self order hcond]
    exact ⟨rfl, rfl⟩
  · have hcond2 : (order.isEmpty || api.is_game_over self.game) = false := by
      cases hB : (order.isEmpty || api.is_game_over self.game) with
      | false => rfl
      | true => exact absurd hB hcond
    have hone : order ≠ [] := by
      intro h
      apply hcond
      rw [h]
      rfl
    have hPlen : (rootEvals api self.color 3 self.game ROOT_ALPHA order).length =
        order.length := rootEvals_length api self.color 3 self.game order ROOT_ALPHA
    have hUlen : (rootEvalsU api self.color 3 self.game order).length = order.length :=
      rootEvalsU_length api self.color 3 self.game order
    have holen : order.length ≠ 0 := fun h => hone (List.length_eq_zero.mp h)
    have hPne : rootEvals api self.color 3 self.game ROOT_ALPHA order ≠ [] := by
      intro h
      rw [h] at hPlen
      exact holen hPlen.symm
    have hUne : rootEvalsU api self.color 3 self.game order ≠ [] := by
      intro h
      rw [h] at hUlen
      exact holen hUlen.symm
    have hPnd : (rootEvals api self.color 3 self.game ROOT_ALPHA order).Nodup := by
      have hf := rootEvals_map_fst api self.color 3 self.game order ROOT_ALPHA
      have hnd2 := hnd
      rw [← hf] at hnd2
      exact hnd2.of_map Prod.fst
    have hUnd : (rootEvalsU api self.color 3 self.game order).Nodup := by
      have hf := rootEvalsU_map_fst api self.color 3 self.game order
      have hnd2 := hnd
      rw [← hf] at hnd2
      exact hnd2.of_map Prod.fst
    obtain ⟨iP, hiP, hcbP, hmaxP, hlastP⟩ := chooseBest_spec _ hPne hPnd
    obtain ⟨iU, hiU, hcbU, hmaxU, hlastU⟩ := chooseBest_spec _ hUne hUnd
    have hra : ROOT_ALPHA ≤ MAX_EVAL := by norm_num [ROOT_ALPHA, MIN_EVAL, MAX_EVAL]
    obtain ⟨hfold, hidx⟩ := rootEvals_rel api self.color 3 self.game hb order ROOT_ALPHA hra
    have hiU2 : iU < order.length := by omega
    have hUmem : ((rootEvalsU api self.color 3 self.game order).get ⟨iU, hiU⟩).2 ∈
        (rootEvalsU api self.color 3 self.game order).map Prod.snd :=
      List.mem_map_of_mem Prod.snd (List.get_mem _ iU hiU)
    have hUub : ∀ y ∈ (rootEvalsU api self.color 3 self.game order).map Prod.snd,
        y ≤ ((rootEvalsU api self.color 3 self.game order).get ⟨iU, hiU⟩).2 := by
      intro y hy
      obtain ⟨p, hp, hpy⟩ := List.mem_map.mp hy
      obtain ⟨⟨j, hj⟩, hpj⟩ := List.mem_iff_get.mp hp
      rw [← hpy, ← hpj]
      exact hmaxU j hj
    have hUlb : ROOT_ALPHA ≤
        ((rootEvalsU api self.color 3 self.game order).get ⟨iU, hiU⟩).2 := by
      rw [rootEvalsU_get api self.color 3 self.game order iU hiU hiU2]
      have hbd := minimax_bounds api self.color hb 3 self.game (order.get ⟨iU, hiU2⟩)
      have hlt : ROOT_ALPHA < MIN_EVAL := by norm_num [ROOT_ALPHA, MIN_EVAL]
      show ROOT_ALPHA ≤ minimax api self.color 3 self.game (order.get ⟨iU, hiU2⟩)
      omega
    have hUB : ((rootEvalsU api self.color 3 self.game order).get ⟨iU, hiU⟩).2 =
        ((rootEvalsU api self.color 3 self.game order).map Prod.snd).foldl max
          ROOT_ALPHA :=
      (int_foldl_max_eq _ _ _ hUmem hUub hUlb).symm
    have hiUP : iU < (rootEvals api self.color 3 self.game ROOT_ALPHA order).length := by
      omega
    have hPB : ((rootEvals api self.color 3 self.game ROOT_ALPHA order).get
        ⟨iU, hiUP⟩).2 =
        ((rootEvalsU api self.color 3 self.game order).map Prod.snd).foldl max
          ROOT_ALPHA :=
      (hidx iU hiUP hiU).2.mpr hUB
    have hPmax2 : ∀ (j : Nat)
        (hj : j < (rootEvals api self.color 3 self.game ROOT_ALPHA order).length),
        ((rootEvals api self.color 3 self.game ROOT_ALPHA order).get ⟨j, hj⟩).2 ≤
          ((rootEvals api self.color 3 self.game ROOT_ALPHA order).get ⟨iU, hiUP⟩).2 := by
      intro j hj
      have hjU : j < (rootEvalsU api self.color 3 self.game order).length := by omega
      have h1 := (hidx j hj hjU).1
      rw [hPB]
      exact h1
    have hPlast2 : ∀ (j : Nat)
        (hj : j < (rootEvals api self.color 3 self.game ROOT_ALPHA order).length),
        iU < j →
        ((rootEvals api self.color 3 self.game ROOT_ALPHA order).get ⟨j, hj⟩).2 <
          ((rootEvals api self.color 3 self.game ROOT_ALPHA order).get ⟨iU, hiUP⟩).2 := by
      intro j hj hlt
      have hjU : j < (rootEvalsU api self.color 3 self.game order).length := by omega
      have h2 := hlastU j hjU hlt
      have h3 : ((rootEvalsU api self.color 3 self.game order).get ⟨j, hjU⟩).2 ≠
          ((rootEvalsU api self.color 3 self.game order).map Prod.snd).foldl max
            ROOT_ALPHA := by
        rw [← hUB]
        omega
      have h4 : ((rootEvals api self.color 3 self.game ROOT_ALPHA order).get ⟨j, hj⟩).2 ≠
          ((rootEvalsU api self.color 3 self.game order).map Prod.snd).foldl max
            ROOT_ALPHA := fun hc => h3 ((hidx j hj hjU).2.mp hc)
      have h5 := (hidx j hj hjU).1
      rw [hPB]
      omega
    have hieq : iP = iU := lastmax_unique _ iP iU hiP hiUP hmaxP hlastP hPmax2 hPlast2
    subst hieq
    have hPfst : ((rootEvals api self.color 3 self.game ROOT_ALPHA order).get
        ⟨iP, hiP⟩).1 = order.get ⟨iP, hiU2⟩ :=
      rootEvals_get_fst api self.color 3 self.game order ROOT_ALPHA iP hiP hiU2
    have hUfst : ((rootEvalsU api self.color 3 self.game order).get ⟨iP, hiU⟩).1 =
        order.get ⟨iP, hiU2⟩ := by
      rw [rootEvalsU_get api self.color 3 self.game order iP hiU hiU2]
    obtain ⟨hs1, hs2⟩ := search_choose api self order hcond2 _ hcbP
    obtain ⟨hu1, hu2⟩ := searchU_choose api self order hcond2 _ hcbU
    have hPB2 : ((rootEvals api self.color 3 self.game ROOT_ALPHA order).get
        ⟨iP, hiP⟩).2 =
        ((rootEvalsU api self.color 3 self.game order).map Prod.snd).foldl max
          ROOT_ALPHA := hPB
    constructor
    · rw [hs1, hu1, hPfst, hUfst]
    · rw [hs2, hu2, hPB2, hUB]

theorem search_eq_search_unpruned_witness :
    (MainEngine.search demoApi ⟨false, Color.White, StatsSubsystem.new⟩ [0, 1]).1 =
      (search_unpruned demoApi ⟨false, Color.White, StatsSubsystem.new⟩ [0, 1]).1 ∧
    (MainEngine.search demoApi ⟨false, Color.White, StatsSubsystem.new⟩
        [0, 1]).2.stats.current_target_eval =
      (search_unpruned demoApi ⟨false, Color.White, StatsSubsystem.new⟩
        [0, 1]).2.stats.current_target_eval :=
  search_eq_search_unpruned demoApi ⟨false, Color.White, StatsSubsystem.new⟩ [0, 1]
    (by decide) (by decide)

/-! ## C4: ranking and tie-break at the root -/

/-- C4 (amended): the returned move carries the maximal root score, and among
root moves sharing the maximal score the one occurring last in the root
iteration order wins — the stable ascending `sort_by_key` is reversed before
`first()` is taken, and the iteration order itself is the arbitrary hash-map
order, not the legal-move generator order. -/
theorem search_best_last_tiebreak (api : ChessApi Pos Mv Uci) (self : MainEngine Pos)
    (order : List Mv) (hnd : order.Nodup) (hne : order ≠ [])
    (hgo : api.is_game_over self.game = false) :
    ∃ (i : Nat) (hi : i < (rootEvals api self.color 3 self.game ROOT_ALPHA order).length),
      (MainEngine.search api self order).1 =
        some ((rootEvals api self.color 3 self.game ROOT_ALPHA order).get ⟨i, hi⟩).1 ∧
      (∀ (j : Nat)
        (hj : j < (rootEvals api self.color 3 self.game ROOT_ALPHA order).length),
        ((rootEvals api self.color 3 self.game ROOT_ALPHA order).get ⟨j, hj⟩).2 ≤
          ((rootEvals api self.color 3 self.game ROOT_ALPHA order).get ⟨i, hi⟩).2) ∧
      (∀ (j : Nat)
        (hj : j < (rootEvals api self.color 3 self.game ROOT_ALPHA order).length),
        i < j →
        ((rootEvals api self.color 3 self.game ROOT_ALPHA order).get ⟨j, hj⟩).2 <
          ((rootEvals api self.color 3 self.game ROOT_ALPHA order).get ⟨i, hi⟩).2) := by
  have h1 : order.isEmpty = false := by
    cases order with
    | nil => exact absurd rfl hne
    | cons a t => rfl
  have hcond : (order.isEmpty || api.is_game_over self.game) = false := by
    rw [h1, hgo]
    rfl
  have hPlen : (rootEvals api self.color 3 self.game ROOT_ALPHA order).length =
      order.length := rootEvals_length api self.color 3 self.game order ROOT_ALPHA
  have hPne : rootEvals api self.color 3 self.game ROOT_ALPHA order ≠ [] := by
    intro h
    rw [h] at hPlen
    exact hne (List.length_eq_zero.mp hPlen.symm)
  have hPnd : (rootEvals api self.color 3 self.game ROOT_ALPHA order).Nodup := by
    have hf := rootEvals_map_fst api self.color 3 self.game order ROOT_ALPHA
    have hnd2 := hnd
    rw [← hf] at hnd2
    exact hnd2.of_map Prod.fst
  obtain ⟨i, hi, hcb, hmax, hlast⟩ := chooseBest_spec _ hPne hPnd
  refine ⟨i, hi, ?_, hmax, hlast⟩
  rw [search_fst_eq api self order hcond, hcb]
  rfl

theorem search_best_last_tiebreak_witness :
    ∃ (i : Nat) (hi : i < (rootEvals demoApi Color.White 3 false ROOT_ALPHA
        [0, 1]).length),
      (MainEngine.search demoApi ⟨false, Color.White, StatsSubsystem.new⟩ [0, 1]).1 =
        some ((rootEvals demoApi Color.White 3 false ROOT_ALPHA [0, 1]).get ⟨i, hi⟩).1 ∧
      (∀ (j : Nat)
        (hj : j < (rootEvals demoApi Color.White 3 false ROOT_ALPHA [0, 1]).length),
        ((rootEvals demoApi Color.White 3 false ROOT_ALPHA [0, 1]).get ⟨j, hj⟩).2 ≤
          ((rootEvals demoApi Color.White 3 false ROOT_ALPHA [0, 1]).get ⟨i, hi⟩).2) ∧
      (∀ (j : Nat)
        (hj : j < (rootEvals demoApi Color.White 3 false ROOT_ALPHA [0, 1]).length),
        i < j →
        ((rootEvals demoApi Color.White 3 false ROOT_ALPHA [0, 1]).get ⟨j, hj⟩).2 <
          ((rootEvals demoApi Color.White 3 false ROOT_ALPHA [0, 1]).get ⟨i, hi⟩).2) :=
  search_best_last_tiebreak demoApi ⟨false, Color.White, StatsSubsystem.new⟩ [0, 1]
    (by decide) (by decide) (by decide)

/-- C4 counterexample: in the toy game both root moves `0` and `1` score `0`
(an exact tie), the legal-move generator enumerates `[0, 1]`, and even with
the root iteration order equal to the generator order the engine returns move
`1`, not the first-seen move `0`: ties are broken towards the last-iterated
move, because the stable ascending sort is reversed. -/
theorem search_tiebreak_counterexample :
    demoApi.legal_moves false = [0, 1] ∧
    rootEvals demoApi Color.White 3 false ROOT_ALPHA [0, 1] = [(0, 0), (1, 0)] ∧
    (MainEngine.search demoApi ⟨false, Color.White, StatsSubsystem.new⟩ [0, 1]).1 =
      some 1 ∧
    (MainEngine.search demoApi ⟨false, Color.White, StatsSubsystem.new⟩ [0, 1]).1 ≠
      some 0 := by
  have hroot : rootEvals demoApi Color.White 3 false ROOT_ALPHA [0, 1] =
      [(0, 0), (1, 0)] := by decide
  have hsorted : List.Pairwise
      (fun x y : Nat × Int => decide (x.2 ≤ y.2) = true) [(0, 0), (1, 0)] := by decide
  have hcb : chooseBest [((0 : Nat), (0 : Int)), (1, 0)] = some (1, 0) := by
    unfold chooseBest
    rw [List.mergeSort_of_sorted hsorted]
    rfl
  have hcond : (([0, 1] : List Nat).isEmpty || demoApi.is_game_over false) = false := by
    decide
  have h := search_fst_eq demoApi ⟨false, Color.White, StatsSubsystem.new⟩ [0, 1] hcond
  have h2 : (MainEngine.search demoApi ⟨false, Color.White, StatsSubsystem.new⟩
      [0, 1]).1 = Option.map Prod.fst
      (chooseBest (rootEvals demoApi Color.White 3 false ROOT_ALPHA [0, 1])) := h
  rw [hroot, hcb] at h2
  refine ⟨rfl, hroot, ?_, ?_⟩
  · rw [h2]
    rfl
  · rw [h2]
    decide
